import Mathlib

/-!
Verification of the loss graphs of the tensorrec repository
(src/tensorrec/loss_graphs.py).

The file shallowly embeds the five loss variants (RMSE, RMSE-Dense,
Separation, WMRB, WMRB-Alignment) over rational-valued tensors:
serial tensors are lists, dense matrices carry explicit dimensions and an
entry function, sparse tensors carry parallel index/value lists, mirroring
tf.SparseTensor.  TensorFlow operations used by the source (tf.greater,
tf.boolean_mask, tf.reduce_mean, tf.nn.moments, tf.sparse_add,
tf.gather_nd, ...) are embedded one by one.  A mean over an empty
selection is NaN in the floating-point code; here it is modelled by
Option, with none standing for the undefined result.
-/

/-- Dense numeric matrix (tf.Tensor of rank 2): explicit shape plus an
entry function. -/
structure DMat where
  rows : ℕ
  cols : ℕ
  entry : ℕ → ℕ → ℚ

/-- Sparse numeric matrix (tf.SparseTensor): shape plus parallel lists of
indices and values, as TensorFlow stores them. -/
structure SpMat where
  rows : ℕ
  cols : ℕ
  indices : List (ℕ × ℕ)
  values : List ℚ

/-- The full set of graph nodes a loss graph may consume, mirroring the
signature of AbstractLossGraph.loss_graph.  Every variant receives all of
them; each reads only the fields it names, the rest land in kwargs. -/
structure LossInputs where
  tf_prediction_serial : List ℚ
  tf_interactions_serial : List ℚ
  tf_prediction : DMat
  tf_interactions : SpMat
  tf_rankings : DMat
  tf_alignment : DMat
  tf_sample_predictions : DMat
  tf_sample_alignments : DMat

/-- tf.greater(t, c): elementwise strict comparison producing a boolean
tensor. -/
def tfGreater (xs : List ℚ) (c : ℚ) : List Bool :=
  xs.map fun x => decide (c < x)

/-- tf.less_equal(t, c): elementwise comparison producing a boolean
tensor. -/
def tfLessEqual (xs : List ℚ) (c : ℚ) : List Bool :=
  xs.map fun x => decide (x ≤ c)

/-- tf.boolean_mask(t, mask): keep the entries of t whose mask bit is
true. -/
def booleanMask {α : Type} (xs : List α) (mask : List Bool) : List α :=
  ((xs.zip mask).filter fun p => p.2).map fun p => p.1

/-- tf.reduce_mean over a serial tensor: sum divided by element count;
none models the NaN produced on an empty tensor. -/
def reduceMean (xs : List ℚ) : Option ℚ :=
  if xs.length = 0 then none else some (xs.sum / xs.length)

/-- Elementwise subtraction of serial tensors. -/
def tfSub (xs ys : List ℚ) : List ℚ :=
  List.zipWith (fun a b => a - b) xs ys

/-- tf.square on a serial tensor. -/
def tfSquare (xs : List ℚ) : List ℚ :=
  xs.map fun x => x ^ 2

/-- tf.nn.moments(t, axes=[0]): sample mean and (biased) variance of a
serial tensor; none models the NaN pair on an empty tensor. -/
def moments (xs : List ℚ) : Option (ℚ × ℚ) :=
  match reduceMean xs with
  | none => none
  | some m =>
    match reduceMean (xs.map fun x => (x - m) ^ 2) with
    | none => none
    | some v => some (m, v)

/-- Value of a sparse tensor at a cell: the sum of all stored values at
that index (tf.sparse_add adds duplicate indices). -/
def sparseAt (sp : SpMat) (u i : ℕ) : ℚ :=
  (((sp.indices.zip sp.values).filter fun p => p.1 = (u, i)).map
    fun p => p.2).sum

/-- tf.sparse_add(sp, M): densify the sparse tensor and add the dense
matrix, on the sparse tensor's shape. -/
def sparseAdd (sp : SpMat) (M : DMat) : DMat :=
  ⟨sp.rows, sp.cols, fun u i => sparseAt sp u i + M.entry u i⟩

/-- Scalar multiplication of a dense matrix. -/
def scalarMulMat (c : ℚ) (M : DMat) : DMat :=
  ⟨M.rows, M.cols, fun u i => c * M.entry u i⟩

/-- tf.square on a dense matrix. -/
def squareMat (M : DMat) : DMat :=
  ⟨M.rows, M.cols, fun u i => M.entry u i ^ 2⟩

/-- tf.reduce_mean over a dense matrix: sum over the whole grid divided
by the entry count; none models NaN on an empty grid. -/
def reduceMeanMat (M : DMat) : Option ℚ :=
  if M.rows * M.cols = 0 then none
  else some ((∑ u in Finset.range M.rows, ∑ i in Finset.range M.cols,
    M.entry u i) / (M.rows * M.cols))

/-- tf.gather_nd(M, indices): read the matrix at a list of cells. -/
def gatherNd (M : DMat) (idx : List (ℕ × ℕ)) : List ℚ :=
  idx.map fun p => M.entry p.1 p.2

/-- tf.reduce_sum(M, axis=1): per-row sums of a dense matrix, as a
function of the row index. -/
def rowSums (M : DMat) : ℕ → ℚ :=
  fun u => ∑ i in Finset.range M.cols, M.entry u i

/-- RMSELossGraph.loss_graph:
sqrt(reduce_mean(square(interactions_serial - prediction_serial))). -/
noncomputable def RMSELossGraph.loss_graph (inp : LossInputs) : Option ℝ :=
  (reduceMean (tfSquare
    (tfSub inp.tf_interactions_serial inp.tf_prediction_serial))).map
    fun m : ℚ => Real.sqrt (m : ℝ)

/-- RMSEDenseLossGraph.loss_graph:
error = sparse_add(interactions, -1 * prediction), then
sqrt(reduce_mean(square(error))) over the full dense grid. -/
noncomputable def RMSEDenseLossGraph.loss_graph (inp : LossInputs) :
    Option ℝ :=
  (reduceMeanMat (squareMat
    (sparseAdd inp.tf_interactions
      (scalarMulMat (-1) inp.tf_prediction)))).map
    fun m : ℚ => Real.sqrt (m : ℝ)

/-- Cumulative distribution function of the standard Normal
distribution (scipy/TF ndtr). -/
noncomputable def ndtr (z : ℝ) : ℝ :=
  ∫ t in Set.Iic z, Real.exp (-(t ^ 2) / 2) / Real.sqrt (2 * Real.pi)

/-- The cdf method of tf.contrib.distributions.Normal(loc, scale) at x:
ndtr((x - loc) / scale).  At scale = 0 the float division yields
plus/minus infinity, so the cdf is 1 when loc < x and 0 when x < loc,
and it is NaN (modelled none) when additionally x = loc (0/0). -/
noncomputable def normalCDF (loc scale x : ℝ) : Option ℝ :=
  if scale = 0 then
    if x = loc then none
    else if loc < x then some 1 else some 0
  else some (ndtr ((x - loc) / scale))

/-- SeparationLossGraph.loss_graph: split the serial predictions by the
sign of the interaction (strictly positive vs non-positive), take each
group's moments, and return 1 - cdf(0) of the Normal distribution with
loc = neg_mean - pos_mean and scale = sqrt(neg_var + pos_var).  none
models the NaN produced when a group is empty (NaN moments) or when the
cdf itself is NaN (scale 0 with loc 0). -/
noncomputable def SeparationLossGraph.loss_graph (inp : LossInputs) :
    Option ℝ :=
  match moments (booleanMask inp.tf_prediction_serial
      (tfGreater inp.tf_interactions_serial 0)),
    moments (booleanMask inp.tf_prediction_serial
      (tfLessEqual inp.tf_interactions_serial 0)) with
  | some pmv, some nmv =>
    (normalCDF ((nmv.1 - pmv.1 : ℚ) : ℝ)
      (Real.sqrt (((nmv.2 + pmv.2 : ℚ) : ℝ))) 0).map fun c => 1 - c
  | _, _ => none

/-- The per-positive-interaction expression of WMRBLossGraph:
sampled_margin_rank = n_sampled_items - n_sampled_items * prediction
+ predictions_sum_for_the_user + irrelevant_item_indicator, where the
irrelevant item indicator is n_sampled_items itself. -/
def wmrbMargin (n p s : ℚ) : ℚ :=
  n - n * p + s + n

/-- The WMRB computation shared by WMRBLossGraph and
WMRBAlignmentLossGraph: filter the strictly-positive interactions,
gather the predictions at their indices, and combine them with the
per-user sums of the sampled predictions. -/
def wmrbComputation (tf_prediction : DMat) (tf_interactions : SpMat)
    (tf_sample_predictions : DMat) : List ℚ :=
  let positive_interaction_indices :=
    booleanMask tf_interactions.indices
      (tfGreater tf_interactions.values 0)
  let positive_predictions :=
    gatherNd tf_prediction positive_interaction_indices
  let n_sampled_items : ℚ := tf_sample_predictions.cols
  let mapped_predictions_sum_per_user :=
    (positive_interaction_indices.map fun p => p.1).map
      (rowSums tf_sample_predictions)
  List.zipWith
    (fun p s => n_sampled_items - n_sampled_items * p + s +
      n_sampled_items)
    positive_predictions mapped_predictions_sum_per_user

/-- WMRBLossGraph.loss_graph: the WMRB computation on the prediction
tensors; returns the vector of sampled margin ranks, one per positive
interaction, unreduced. -/
def WMRBLossGraph.loss_graph (inp : LossInputs) : List ℚ :=
  wmrbComputation inp.tf_prediction inp.tf_interactions
    inp.tf_sample_predictions

/-- WMRBAlignmentLossGraph.loss_graph: delegates to the WMRB computation
with the alignment tensors in place of the prediction tensors. -/
def WMRBAlignmentLossGraph.loss_graph (inp : LossInputs) : List ℚ :=
  wmrbComputation inp.tf_alignment inp.tf_interactions
    inp.tf_sample_alignments

/-- An empty dense matrix, used to fill unused input slots in concrete
examples. -/
def dmat0 : DMat :=
  ⟨0, 0, fun _ _ => 0⟩

/-- An empty sparse matrix, used to fill unused input slots in concrete
examples. -/
def spmat0 : SpMat :=
  ⟨0, 0, [], []⟩

/-- Inputs carrying only the serial tensors, all other slots empty. -/
def mkSerialInput (ps is : List ℚ) : LossInputs :=
  ⟨ps, is, dmat0, spmat0, dmat0, dmat0, dmat0, dmat0⟩

/-- Inputs carrying only the tensors WMRBLossGraph reads, all other
slots empty. -/
def mkWmrbInput (P : DMat) (sp : SpMat) (S : DMat) : LossInputs :=
  ⟨[], [], P, sp, dmat0, dmat0, S, dmat0⟩

/-- The strictly-positive interactions of a sparse tensor, as
index/value pairs in storage order. -/
def positiveInteractions (sp : SpMat) : List ((ℕ × ℕ) × ℚ) :=
  (sp.indices.zip sp.values).filter fun p => decide (0 < p.2)

/-- A concrete WMRB input: a 2x2 prediction matrix, one positive and one
negative interaction, and a 2x3 all-ones sample matrix. -/
def wmrbInputW : LossInputs :=
  mkWmrbInput ⟨2, 2, fun u i => (u : ℚ) + i⟩
    ⟨2, 2, [(0, 1), (1, 0)], [1, -1]⟩ ⟨2, 3, fun _ _ => 1⟩

/-- The RMSE formula as the spec words it:
sqrt(mean((interactions_serial - predictions_serial)^2)), with the mean
written as an indexed sum; undefined (none) on empty input. -/
noncomputable def rmseSpecFormula (is ps : List ℚ) : Option ℝ :=
  if is.length = 0 then none
  else some (Real.sqrt (((∑ j in Finset.range is.length,
    (is.getD j 0 - ps.getD j 0) ^ 2) / is.length : ℚ) : ℝ))

/-- The positive-interaction group of the serial tensors: predictions
whose aligned interaction is strictly positive. -/
def posGroup (ps is : List ℚ) : List ℚ :=
  ((ps.zip is).filter fun p => decide (0 < p.2)).map fun p => p.1

/-- The non-positive-interaction group of the serial tensors:
predictions whose aligned interaction is at most zero. -/
def nonposGroup (ps is : List ℚ) : List ℚ :=
  ((ps.zip is).filter fun p => decide (p.2 ≤ 0)).map fun p => p.1

/-- Sample mean of a list of rationals. -/
def sampleMean (xs : List ℚ) : ℚ :=
  xs.sum / xs.length

/-- Biased sample variance of a list of rationals. -/
def sampleVar (xs : List ℚ) : ℚ :=
  ((xs.map fun x => (x - sampleMean xs) ^ 2).sum) / xs.length

/-- The separation loss as the spec words it: group by interaction
sign, fit each group's mean and variance, and take 1 - CDF(0) of the
Normal distribution with loc = neg_mean - pos_mean and
scale = sqrt(neg_var + pos_var); undefined when a group is empty or
when the cdf is itself undefined. -/
noncomputable def separationSpec (ps is : List ℚ) : Option ℝ :=
  if posGroup ps is = [] ∨ nonposGroup ps is = [] then none
  else (normalCDF
    ((sampleMean (nonposGroup ps is) - sampleMean (posGroup ps is) : ℚ) : ℝ)
    (Real.sqrt (((sampleVar (nonposGroup ps is) +
      sampleVar (posGroup ps is) : ℚ) : ℝ))) 0).map fun c => 1 - c

/-- Serial tensors covering one cell of a 1x2 grid: the sparse tensor
stores value 1 at (0,0), the dense prediction is all zeros. -/
def rmseDenseCexInput : LossInputs :=
  ⟨[0], [1], ⟨1, 2, fun _ _ => 0⟩, ⟨1, 2, [(0, 0)], [1]⟩, dmat0, dmat0,
    dmat0, dmat0⟩

lemma booleanMask_map {α : Type} (f : ℚ → Bool) (xs : List α)
    (ys : List ℚ) :
    booleanMask xs (ys.map f) =
      ((xs.zip ys).filter fun p => f p.2).map fun p => p.1 := by
  induction xs generalizing ys with
  | nil => simp [booleanMask]
  | cons x xs ih =>
    cases ys with
    | nil => simp [booleanMask]
    | cons y ys =>
      by_cases hy : f y = true
      · simpa [booleanMask, List.filter_cons, hy] using ih ys
      · simp only [Bool.not_eq_true] at hy
        simpa [booleanMask, List.filter_cons, hy] using ih ys

lemma zipWith_map_same {α β γ δ : Type} (f : β → γ → δ) (g : α → β)
    (h : α → γ) (l : List α) :
    List.zipWith f (l.map g) (l.map h) = l.map fun x => f (g x) (h x) := by
  induction l with
  | nil => rfl
  | cons a l ih => simp [ih]

lemma filter_zip_length {α : Type} (p : ℚ → Bool) (xs : List α)
    (ys : List ℚ) (h : ys.length = xs.length) :
    ((xs.zip ys).filter fun q => p q.2).length = (ys.filter p).length := by
  induction xs generalizing ys with
  | nil => cases ys with
    | nil => simp
    | cons y ys => simp at h
  | cons x xs ih =>
    cases ys with
    | nil => simp at h
    | cons y ys =>
      simp only [List.length_cons, Nat.succ.injEq] at h
      by_cases hy : p y = true
      · simp [List.filter_cons, hy, ih ys h]
      · simp only [Bool.not_eq_true] at hy
        simp [List.filter_cons, hy, ih ys h]

/-- The WMRB pipeline, collapsed: one margin entry per strictly-positive
interaction, in storage order. -/
lemma wmrbComputation_eq (P : DMat) (sp : SpMat) (S : DMat) :
    wmrbComputation P sp S =
      (positiveInteractions sp).map fun q =>
        wmrbMargin (S.cols : ℚ) (P.entry q.1.1 q.1.2)
          (rowSums S q.1.1) := by
  unfold wmrbComputation positiveInteractions wmrbMargin tfGreater
    gatherNd
  rw [booleanMask_map (fun v => decide ((0 : ℚ) < v)) sp.indices
    sp.values]
  simp only [List.map_map]
  rw [zipWith_map_same]
  rfl

/-- Claim C1: the WMRB loss graph keeps exactly the strictly-positive
interactions and returns, unreduced, one margin per such interaction,
namely n_sampled_items - n_sampled_items * prediction + (the user's
sampled-prediction sum) + n_sampled_items, with n_sampled_items the
column count of the sample-predictions tensor. -/
theorem wmrb_loss_graph_entries (inp : LossInputs)
    (h : inp.tf_interactions.values.length =
      inp.tf_interactions.indices.length) :
    WMRBLossGraph.loss_graph inp =
      (positiveInteractions inp.tf_interactions).map (fun q =>
        wmrbMargin (inp.tf_sample_predictions.cols : ℚ)
          (inp.tf_prediction.entry q.1.1 q.1.2)
          (rowSums inp.tf_sample_predictions q.1.1)) ∧
    (WMRBLossGraph.loss_graph inp).length =
      (inp.tf_interactions.values.filter fun v =>
        decide (0 < v)).length := by
  refine ⟨wmrbComputation_eq _ _ _, ?_⟩
  show (wmrbComputation _ _ _).length = _
  rw [wmrbComputation_eq, List.length_map, positiveInteractions]
  exact filter_zip_length (fun v => decide (0 < v)) _ _ h

/-- Witness for C1 at a concrete input. -/
theorem wmrb_loss_graph_entries_w :
    WMRBLossGraph.loss_graph wmrbInputW =
      (positiveInteractions wmrbInputW.tf_interactions).map (fun q =>
        wmrbMargin (wmrbInputW.tf_sample_predictions.cols : ℚ)
          (wmrbInputW.tf_prediction.entry q.1.1 q.1.2)
          (rowSums wmrbInputW.tf_sample_predictions q.1.1)) ∧
    (WMRBLossGraph.loss_graph wmrbInputW).length =
      (wmrbInputW.tf_interactions.values.filter fun v =>
        decide (0 < v)).length :=
  wmrb_loss_graph_entries wmrbInputW rfl

/-- Claim C5: WMRBAlignmentLossGraph.loss_graph on alignment tensors is
exactly WMRBLossGraph.loss_graph on the same tensors supplied as
prediction tensors. -/
theorem wmrb_alignment_delegates (inp inp' : LossInputs)
    (h1 : inp'.tf_prediction = inp.tf_alignment)
    (h2 : inp'.tf_interactions = inp.tf_interactions)
    (h3 : inp'.tf_sample_predictions = inp.tf_sample_alignments) :
    WMRBAlignmentLossGraph.loss_graph inp =
      WMRBLossGraph.loss_graph inp' := by
  simp [WMRBAlignmentLossGraph.loss_graph, WMRBLossGraph.loss_graph,
    h1, h2, h3]

/-- Witness for C5 at a concrete input. -/
theorem wmrb_alignment_delegates_w :
    WMRBAlignmentLossGraph.loss_graph
      ⟨[9], [9], dmat0, ⟨1, 1, [(0, 0)], [1]⟩, dmat0,
        ⟨1, 1, fun _ _ => 5⟩, dmat0, ⟨1, 2, fun _ _ => 2⟩⟩ =
    WMRBLossGraph.loss_graph
      (mkWmrbInput ⟨1, 1, fun _ _ => 5⟩ ⟨1, 1, [(0, 0)], [1]⟩
        ⟨1, 2, fun _ _ => 2⟩) :=
  wmrb_alignment_delegates _ _ rfl rfl rfl

/-- Counterexample to C6 as stated: with a sample tensor of zero columns
(n_sampled_items = 0) and one positive interaction per user, raising the
positive prediction from 0 to 1 leaves the margin vector unchanged, so
the margin does not strictly decrease. -/
theorem wmrb_monotonicity_cex :
    (DMat.entry ⟨1, 1, fun _ _ => 0⟩ 0 0 <
      DMat.entry ⟨1, 1, fun _ _ => 1⟩ 0 0) ∧
    WMRBLossGraph.loss_graph
      (mkWmrbInput ⟨1, 1, fun _ _ => 1⟩ ⟨1, 1, [(0, 0)], [1]⟩
        ⟨1, 0, fun _ _ => 0⟩) =
    WMRBLossGraph.loss_graph
      (mkWmrbInput ⟨1, 1, fun _ _ => 0⟩ ⟨1, 1, [(0, 0)], [1]⟩
        ⟨1, 0, fun _ _ => 0⟩) := by
  refine ⟨by norm_num, ?_⟩
  show wmrbComputation _ _ _ = wmrbComputation _ _ _
  rw [wmrbComputation_eq, wmrbComputation_eq]
  norm_num [positiveInteractions, wmrbMargin, rowSums, mkWmrbInput,
    List.filter]

/-- Claim C6 (amended: n_sampled_items at least 1): with one positive
interaction per user the margin of each user is
wmrbMargin k p s = k - k*p + s + k, and for k ≥ 1 a strictly larger p
gives a strictly smaller margin. -/
theorem wmrb_monotonicity :
    (∀ inp : LossInputs,
      inp.tf_interactions.values.length =
        inp.tf_interactions.indices.length →
      (((positiveInteractions inp.tf_interactions).map fun q =>
        q.1.1).Nodup) →
      WMRBLossGraph.loss_graph inp =
        (positiveInteractions inp.tf_interactions).map (fun q =>
          wmrbMargin (inp.tf_sample_predictions.cols : ℚ)
            (inp.tf_prediction.entry q.1.1 q.1.2)
            (rowSums inp.tf_sample_predictions q.1.1))) ∧
    (∀ k p₁ p₂ s : ℚ, 1 ≤ k → p₁ < p₂ →
      wmrbMargin k p₂ s < wmrbMargin k p₁ s) := by
  constructor
  · intro inp _ _
    exact wmrbComputation_eq _ _ _
  · intro k p₁ p₂ s hk hp
    unfold wmrbMargin
    nlinarith

/-- Witness for C6 at a concrete input. -/
theorem wmrb_monotonicity_w :
    WMRBLossGraph.loss_graph wmrbInputW =
      (positiveInteractions wmrbInputW.tf_interactions).map (fun q =>
        wmrbMargin (wmrbInputW.tf_sample_predictions.cols : ℚ)
          (wmrbInputW.tf_prediction.entry q.1.1 q.1.2)
          (rowSums wmrbInputW.tf_sample_predictions q.1.1)) ∧
    wmrbMargin 3 1 5 < wmrbMargin 3 0 5 :=
  ⟨wmrb_monotonicity.1 wmrbInputW rfl (by decide),
    wmrb_monotonicity.2 3 0 1 5 (by norm_num) (by norm_num)⟩

/-- Claim C9: each loss graph reads only the tensors it names; any
change confined to the remaining inputs leaves its output unchanged. -/
theorem losses_ignore_unused :
    (∀ a b : LossInputs,
      a.tf_prediction_serial = b.tf_prediction_serial →
      a.tf_interactions_serial = b.tf_interactions_serial →
      RMSELossGraph.loss_graph a = RMSELossGraph.loss_graph b) ∧
    (∀ a b : LossInputs,
      a.tf_interactions = b.tf_interactions →
      a.tf_prediction = b.tf_prediction →
      RMSEDenseLossGraph.loss_graph a =
        RMSEDenseLossGraph.loss_graph b) ∧
    (∀ a b : LossInputs,
      a.tf_prediction_serial = b.tf_prediction_serial →
      a.tf_interactions_serial = b.tf_interactions_serial →
      SeparationLossGraph.loss_graph a =
        SeparationLossGraph.loss_graph b) ∧
    (∀ a b : LossInputs,
      a.tf_prediction = b.tf_prediction →
      a.tf_interactions = b.tf_interactions →
      a.tf_sample_predictions = b.tf_sample_predictions →
      WMRBLossGraph.loss_graph a = WMRBLossGraph.loss_graph b) ∧
    (∀ a b : LossInputs,
      a.tf_alignment = b.tf_alignment →
      a.tf_interactions = b.tf_interactions →
      a.tf_sample_alignments = b.tf_sample_alignments →
      WMRBAlignmentLossGraph.loss_graph a =
        WMRBAlignmentLossGraph.loss_graph b) := by
  refine ⟨?_, ?_, ?_, ?_, ?_⟩
  · intro a b h1 h2
    simp [RMSELossGraph.loss_graph, h1, h2]
  · intro a b h1 h2
    simp [RMSEDenseLossGraph.loss_graph, h1, h2]
  · intro a b h1 h2
    simp only [SeparationLossGraph.loss_graph, h1, h2]
  · intro a b h1 h2 h3
    simp [WMRBLossGraph.loss_graph, h1, h2, h3]
  · intro a b h1 h2 h3
    simp [WMRBAlignmentLossGraph.loss_graph, h1, h2, h3]

/-- Witness for C9: the RMSE loss graph gives the same value whether the
unused dense, ranking, alignment and sample tensors are empty or filled
with junk. -/
theorem losses_ignore_unused_w :
    RMSELossGraph.loss_graph (mkSerialInput [1, 2] [0, 1]) =
      RMSELossGraph.loss_graph
        ⟨[1, 2], [0, 1], ⟨3, 3, fun _ _ => 7⟩, ⟨1, 1, [(0, 0)], [4]⟩,
          ⟨1, 1, fun _ _ => 1⟩, ⟨1, 1, fun _ _ => 2⟩,
          ⟨1, 1, fun _ _ => 3⟩, ⟨1, 1, fun _ _ => 4⟩⟩ :=
  losses_ignore_unused.1 _ _ rfl rfl

lemma tfSquare_tfSub_length (is ps : List ℚ)
    (h : is.length = ps.length) :
    (tfSquare (tfSub is ps)).length = is.length := by
  simp [tfSquare, tfSub, h]

lemma tfSquare_tfSub_sum (is ps : List ℚ) (h : is.length = ps.length) :
    (tfSquare (tfSub is ps)).sum =
      ∑ j in Finset.range is.length,
        (is.getD j 0 - ps.getD j 0) ^ 2 := by
  induction is generalizing ps with
  | nil => simp [tfSquare, tfSub]
  | cons a t ih =>
    cases ps with
    | nil => simp at h
    | cons b u =>
      simp only [List.length_cons, Nat.succ.injEq] at h
      simp only [tfSquare, tfSub, List.zipWith_cons_cons,
        List.map_cons, List.sum_cons, List.length_cons]
      rw [Finset.sum_range_succ']
      simp only [List.getD_cons_succ, List.getD_cons_zero]
      rw [← ih u h]
      simp [tfSquare, tfSub, add_comm]

lemma sum_sq_nonneg (xs : List ℚ) : 0 ≤ (tfSquare xs).sum := by
  apply List.sum_nonneg
  intro x hx
  obtain ⟨y, _, rfl⟩ := List.mem_map.1 hx
  positivity

lemma sum_sq_zero_iff (is ps : List ℚ) (h : is.length = ps.length) :
    (tfSquare (tfSub is ps)).sum = 0 ↔ ps = is := by
  induction is generalizing ps with
  | nil =>
    cases ps with
    | nil => simp [tfSquare, tfSub]
    | cons b u => simp at h
  | cons a t ih =>
    cases ps with
    | nil => simp at h
    | cons b u =>
      simp only [List.length_cons, Nat.succ.injEq] at h
      simp only [tfSquare, tfSub, List.zipWith_cons_cons,
        List.map_cons, List.sum_cons]
      have h1 : (0 : ℚ) ≤ (a - b) ^ 2 := by positivity
      have h2 : (0 : ℚ) ≤ (List.map (fun x => x ^ 2)
          (List.zipWith (fun a b => a - b) t u)).sum :=
        sum_sq_nonneg (tfSub t u)
      have ih' : (List.map (fun x => x ^ 2)
          (List.zipWith (fun a b => a - b) t u)).sum = 0 ↔ u = t :=
        ih u h
      rw [add_eq_zero_iff_of_nonneg h1 h2]
      constructor
      · rintro ⟨hab, hs⟩
        have hab0 : a - b = 0 :=
          (pow_eq_zero_iff (by norm_num : (2 : ℕ) ≠ 0)).mp hab
        have hab' : b = a := by linarith
        have hu : u = t := ih'.mp hs
        rw [hab', hu]
      · intro he
        injection he with h3 h4
        refine ⟨by rw [h3]; ring, ih'.mpr h4⟩

/-- Claim C7: the RMSE loss graph computes
sqrt(mean((interactions_serial - predictions_serial)^2)). -/
theorem rmse_loss_graph_formula (inp : LossInputs)
    (h : inp.tf_interactions_serial.length =
      inp.tf_prediction_serial.length) :
    RMSELossGraph.loss_graph inp =
      rmseSpecFormula inp.tf_interactions_serial
        inp.tf_prediction_serial := by
  simp only [RMSELossGraph.loss_graph, rmseSpecFormula, reduceMean,
    tfSquare_tfSub_length _ _ h, tfSquare_tfSub_sum _ _ h]
  by_cases hn : inp.tf_interactions_serial.length = 0
  · simp [hn]
  · simp [hn]

/-- Witness for C7 at a concrete input. -/
theorem rmse_loss_graph_formula_w :
    RMSELossGraph.loss_graph (mkSerialInput [1, 2] [1, 1]) =
      rmseSpecFormula [1, 1] [1, 2] :=
  rmse_loss_graph_formula (mkSerialInput [1, 2] [1, 1]) rfl

/-- Claim C8: whenever the RMSE loss graph yields a numeric value on
equal-length serial tensors, that value is non-negative and is zero
exactly when the predictions match the interactions; on the spec's two
examples it yields 0 and 1. -/
theorem rmse_nonneg_zero_iff :
    (∀ (inp : LossInputs) (v : ℝ),
      inp.tf_interactions_serial.length =
        inp.tf_prediction_serial.length →
      RMSELossGraph.loss_graph inp = some v →
      0 ≤ v ∧
        (v = 0 ↔
          inp.tf_prediction_serial = inp.tf_interactions_serial)) ∧
    RMSELossGraph.loss_graph (mkSerialInput [1, 2, 3] [1, 2, 3]) =
      some 0 ∧
    RMSELossGraph.loss_graph (mkSerialInput [0, 0, 0] [1, 1, 1]) =
      some 1 := by
  refine ⟨?_, ?_, ?_⟩
  · intro inp v hlen hv
    simp only [RMSELossGraph.loss_graph, reduceMean] at hv
    by_cases hn :
        (tfSquare (tfSub inp.tf_interactions_serial
          inp.tf_prediction_serial)).length = 0
    · simp [hn] at hv
    · simp only [hn, if_false, Option.map_some', Option.some.injEq] at hv
      subst hv
      have hS := sum_sq_nonneg
        (tfSub inp.tf_interactions_serial inp.tf_prediction_serial)
      have hnq : ((tfSquare (tfSub inp.tf_interactions_serial
          inp.tf_prediction_serial)).length : ℚ) ≠ 0 :=
        Nat.cast_ne_zero.mpr hn
      have hq : (0 : ℚ) ≤ (tfSquare (tfSub inp.tf_interactions_serial
          inp.tf_prediction_serial)).sum /
          ((tfSquare (tfSub inp.tf_interactions_serial
            inp.tf_prediction_serial)).length : ℚ) :=
        div_nonneg hS (Nat.cast_nonneg _)
      refine ⟨Real.sqrt_nonneg _, ?_⟩
      rw [Real.sqrt_eq_zero', Rat.cast_nonpos]
      constructor
      · intro hle
        have hz : (tfSquare (tfSub inp.tf_interactions_serial
            inp.tf_prediction_serial)).sum /
            ((tfSquare (tfSub inp.tf_interactions_serial
              inp.tf_prediction_serial)).length : ℚ) = 0 :=
          le_antisymm hle hq
        rcases div_eq_zero_iff.mp hz with hz2 | hz2
        · exact (sum_sq_zero_iff _ _ hlen).mp hz2
        · exact absurd hz2 hnq
      · intro he
        have hz : (tfSquare (tfSub inp.tf_interactions_serial
            inp.tf_prediction_serial)).sum = 0 :=
          (sum_sq_zero_iff _ _ hlen).mpr he
        rw [hz]
        simp
  · simp [RMSELossGraph.loss_graph, mkSerialInput, reduceMean,
      tfSquare, tfSub]
  · simp [RMSELossGraph.loss_graph, mkSerialInput, reduceMean,
      tfSquare, tfSub]
    norm_num

/-- Witness for C8: the universal part applied at the spec's second
example. -/
theorem rmse_nonneg_zero_iff_w :
    0 ≤ (1 : ℝ) ∧
      ((1 : ℝ) = 0 ↔ ([0, 0, 0] : List ℚ) = [1, 1, 1]) :=
  rmse_nonneg_zero_iff.1 (mkSerialInput [0, 0, 0] [1, 1, 1]) 1 rfl
    rmse_nonneg_zero_iff.2.2

lemma moments_nil : moments [] = none := rfl

lemma moments_eq (xs : List ℚ) (h : xs ≠ []) :
    moments xs = some (sampleMean xs, sampleVar xs) := by
  have hl : xs.length ≠ 0 := fun h0 => h (List.length_eq_zero.mp h0)
  simp [moments, reduceMean, hl, sampleMean, sampleVar]

/-- The separation loss graph computes the spec's formula. -/
lemma separation_loss_eq_spec (inp : LossInputs) :
    SeparationLossGraph.loss_graph inp =
      separationSpec inp.tf_prediction_serial
        inp.tf_interactions_serial := by
  show (match
      moments (booleanMask inp.tf_prediction_serial
        (tfGreater inp.tf_interactions_serial 0)),
      moments (booleanMask inp.tf_prediction_serial
        (tfLessEqual inp.tf_interactions_serial 0)) with
    | some pmv, some nmv =>
      (normalCDF ((nmv.1 - pmv.1 : ℚ) : ℝ)
        (Real.sqrt (((nmv.2 + pmv.2 : ℚ) : ℝ))) 0).map fun c => 1 - c
    | _, _ => none) = _
  have hpos : booleanMask inp.tf_prediction_serial
      (tfGreater inp.tf_interactions_serial 0) =
      posGroup inp.tf_prediction_serial inp.tf_interactions_serial :=
    booleanMask_map _ _ _
  have hneg : booleanMask inp.tf_prediction_serial
      (tfLessEqual inp.tf_interactions_serial 0) =
      nonposGroup inp.tf_prediction_serial inp.tf_interactions_serial :=
    booleanMask_map _ _ _
  rw [hpos, hneg, separationSpec]
  by_cases hp : posGroup inp.tf_prediction_serial
      inp.tf_interactions_serial = []
  · rw [hp, moments_nil]
    simp [hp]
  · by_cases hn : nonposGroup inp.tf_prediction_serial
        inp.tf_interactions_serial = []
    · rw [hn, moments_nil, moments_eq _ hp]
      simp [hn]
    · rw [moments_eq _ hp, moments_eq _ hn]
      simp [hp, hn]

lemma tfGreater_congr (is is' : List ℚ)
    (h : List.Forall₂ (fun a b => 0 < a ↔ 0 < b) is is') :
    tfGreater is 0 = tfGreater is' 0 := by
  induction h with
  | nil => rfl
  | cons hab _ ih =>
    simp only [tfGreater, List.map_cons] at *
    rw [ih, decide_eq_decide.mpr hab]

lemma tfLessEqual_congr (is is' : List ℚ)
    (h : List.Forall₂ (fun a b => 0 < a ↔ 0 < b) is is') :
    tfLessEqual is 0 = tfLessEqual is' 0 := by
  induction h with
  | nil => rfl
  | @cons a b l₁ l₂ hab htl ih =>
    simp only [tfLessEqual, List.map_cons] at *
    have hiff : a ≤ 0 ↔ b ≤ 0 := by
      rw [← not_lt, ← not_lt]
      exact not_congr hab
    rw [ih, decide_eq_decide.mpr hiff]

/-- Claim C3: the separation loss graph computes exactly the spec's
partition/moments/overlap formula, and only the signs of the
interactions matter: replacing the serial interactions by any list with
the same signs pointwise leaves the loss unchanged. -/
theorem separation_loss_graph_spec (inp : LossInputs) :
    SeparationLossGraph.loss_graph inp =
      separationSpec inp.tf_prediction_serial
        inp.tf_interactions_serial ∧
    (∀ inp' : LossInputs,
      inp'.tf_prediction_serial = inp.tf_prediction_serial →
      List.Forall₂ (fun a b => 0 < a ↔ 0 < b)
        inp.tf_interactions_serial inp'.tf_interactions_serial →
      SeparationLossGraph.loss_graph inp' =
        SeparationLossGraph.loss_graph inp) := by
  refine ⟨separation_loss_eq_spec inp, ?_⟩
  intro inp' hp hsign
  show (match
      moments (booleanMask inp'.tf_prediction_serial
        (tfGreater inp'.tf_interactions_serial 0)),
      moments (booleanMask inp'.tf_prediction_serial
        (tfLessEqual inp'.tf_interactions_serial 0)) with
    | some pmv, some nmv =>
      (normalCDF ((nmv.1 - pmv.1 : ℚ) : ℝ)
        (Real.sqrt (((nmv.2 + pmv.2 : ℚ) : ℝ))) 0).map fun c => 1 - c
    | _, _ => none) = _
  rw [hp, ← tfGreater_congr _ _ hsign, ← tfLessEqual_congr _ _ hsign]
  rfl

/-- Witness for C3: the sign-invariance part at a concrete input whose
interactions are rescaled without changing sign. -/
theorem separation_loss_graph_spec_w :
    SeparationLossGraph.loss_graph (mkSerialInput [1, 2] [5, -2]) =
      SeparationLossGraph.loss_graph (mkSerialInput [1, 2] [3, -1]) :=
  (separation_loss_graph_spec (mkSerialInput [1, 2] [3, -1])).2
    (mkSerialInput [1, 2] [5, -2]) rfl
    (List.Forall₂.cons (by norm_num)
      (List.Forall₂.cons (by norm_num) List.Forall₂.nil))

lemma posGroup_eq_nil_iff (ps is : List ℚ)
    (h : ps.length = is.length) :
    posGroup ps is = [] ↔ ∀ x ∈ is, ¬ (0 < x) := by
  unfold posGroup
  rw [List.map_eq_nil_iff, List.filter_eq_nil_iff]
  constructor
  · intro hf x hx
    rw [← List.map_snd_zip ps is h.ge] at hx
    obtain ⟨p, hp, rfl⟩ := List.mem_map.1 hx
    simpa using hf p hp
  · intro hall p hp
    have hmem : p.2 ∈ is := by
      have := List.mem_map_of_mem Prod.snd hp
      rwa [List.map_snd_zip ps is h.ge] at this
    simpa using hall p.2 hmem

lemma nonposGroup_eq_nil_iff (ps is : List ℚ)
    (h : ps.length = is.length) :
    nonposGroup ps is = [] ↔ ∀ x ∈ is, ¬ (x ≤ 0) := by
  unfold nonposGroup
  rw [List.map_eq_nil_iff, List.filter_eq_nil_iff]
  constructor
  · intro hf x hx
    rw [← List.map_snd_zip ps is h.ge] at hx
    obtain ⟨p, hp, rfl⟩ := List.mem_map.1 hx
    simpa using hf p hp
  · intro hall p hp
    have hmem : p.2 ∈ is := by
      have := List.mem_map_of_mem Prod.snd hp
      rwa [List.map_snd_zip ps is h.ge] at this
    simpa using hall p.2 hmem

/-- Claim C10: the separation loss graph yields a numeric value only
when the serial interactions contain at least one strictly-positive and
at least one non-positive entry; whenever either group is empty, its
moments are NaN and the loss is the undefined value.  (The converse
does not hold: with both groups nonempty the loss can still be NaN,
e.g. when both variances are 0 and the means coincide.) -/
theorem separation_loss_undefined_of_empty_group (inp : LossInputs)
    (h : inp.tf_prediction_serial.length =
      inp.tf_interactions_serial.length) :
    (((∀ x ∈ inp.tf_interactions_serial, ¬ (0 < x)) ∨
      (∀ x ∈ inp.tf_interactions_serial, ¬ (x ≤ 0))) →
      SeparationLossGraph.loss_graph inp = none) ∧
    (SeparationLossGraph.loss_graph inp ≠ none →
      (∃ x ∈ inp.tf_interactions_serial, 0 < x) ∧
      (∃ x ∈ inp.tf_interactions_serial, x ≤ 0)) := by
  have hkey : ((∀ x ∈ inp.tf_interactions_serial, ¬ (0 < x)) ∨
      (∀ x ∈ inp.tf_interactions_serial, ¬ (x ≤ 0))) →
      SeparationLossGraph.loss_graph inp = none := by
    intro hcase
    rw [separation_loss_eq_spec inp, separationSpec]
    have hcond : posGroup inp.tf_prediction_serial
          inp.tf_interactions_serial = [] ∨
        nonposGroup inp.tf_prediction_serial
          inp.tf_interactions_serial = [] := by
      rcases hcase with hc | hc
      · exact Or.inl ((posGroup_eq_nil_iff _ _ h).mpr hc)
      · exact Or.inr ((nonposGroup_eq_nil_iff _ _ h).mpr hc)
    rw [if_pos hcond]
  refine ⟨hkey, ?_⟩
  intro hne
  by_contra hcon
  rw [not_and_or] at hcon
  refine hne (hkey ?_)
  rcases hcon with hc | hc
  · push_neg at hc
    exact Or.inl fun x hx => not_lt.mpr (hc x hx)
  · push_neg at hc
    refine Or.inr fun x hx => ?_
    rw [not_le]
    exact hc x hx

/-- Witness for C10: with all interactions non-positive (a single zero)
the loss is undefined. -/
theorem separation_loss_undefined_of_empty_group_w :
    SeparationLossGraph.loss_graph (mkSerialInput [1] [0]) = none :=
  (separation_loss_undefined_of_empty_group (mkSerialInput [1] [0])
    rfl).1
    (Or.inl (by norm_num [mkSerialInput]))

/-- Counterexample to C2 as stated: with one serial sample on a 1x2
grid, all off-pattern interactions and predictions zero, the serial RMSE
divides by 1 sample while the dense RMSE divides by the 2 grid cells, so
the losses differ (1 versus sqrt(1/2)). -/
theorem rmse_dense_ne_rmse_cex :
    RMSEDenseLossGraph.loss_graph rmseDenseCexInput ≠
      RMSELossGraph.loss_graph rmseDenseCexInput := by
  have hs : RMSELossGraph.loss_graph rmseDenseCexInput = some 1 := by
    norm_num [RMSELossGraph.loss_graph, rmseDenseCexInput, reduceMean,
      tfSquare, tfSub]
  have hd : RMSEDenseLossGraph.loss_graph rmseDenseCexInput =
      some (Real.sqrt ((1 / 2 : ℚ) : ℝ)) := by
    norm_num [RMSEDenseLossGraph.loss_graph, rmseDenseCexInput,
      reduceMeanMat, squareMat, sparseAdd, scalarMulMat, sparseAt,
      Finset.sum_range_succ, List.filter_cons, Prod.ext_iff]
  intro h
  rw [hd, hs] at h
  have h2 := Option.some.inj h
  have h3 := Real.sq_sqrt (show (0 : ℝ) ≤ ((1 / 2 : ℚ) : ℝ) by norm_num)
  rw [h2] at h3
  norm_num at h3

lemma sum_filter_key_eq (l : List ((ℕ × ℕ) × ℚ))
    (hnd : (l.map fun p => p.1).Nodup) :
    ∀ pv ∈ l,
      ((l.filter fun p => decide (p.1 = pv.1)).map fun p => p.2).sum =
        pv.2 := by
  induction l with
  | nil =>
    intro pv hpv
    cases hpv
  | cons a t ih =>
    intro pv hpv
    rw [List.map_cons, List.nodup_cons] at hnd
    obtain ⟨ha, ht⟩ := hnd
    rcases List.mem_cons.mp hpv with heq | hm
    · subst heq
      have htail : t.filter (fun p => decide (p.1 = pv.1)) = [] := by
        rw [List.filter_eq_nil_iff]
        intro p hp hdec
        rw [decide_eq_true_eq] at hdec
        exact ha (hdec ▸ List.mem_map_of_mem (fun p => p.1) hp)
      rw [List.filter_cons]
      simp [htail]
    · have hne : ¬ (a.1 = pv.1) := by
        intro he
        refine ha ?_
        rw [he]
        exact List.mem_map_of_mem (fun p => p.1) hm
      rw [List.filter_cons]
      simp [hne, ih ht pv hm]

lemma sparseAt_mem (sp : SpMat) (hnd : sp.indices.Nodup)
    (hlen : sp.values.length = sp.indices.length) :
    ∀ pv ∈ sp.indices.zip sp.values,
      sparseAt sp pv.1.1 pv.1.2 = pv.2 := by
  intro pv hmem
  have hmapf : ((sp.indices.zip sp.values).map fun p => p.1) =
      sp.indices :=
    List.map_fst_zip _ _ hlen.ge
  have hnd' : ((sp.indices.zip sp.values).map fun p => p.1).Nodup := by
    rw [hmapf]
    exact hnd
  have hkey := sum_filter_key_eq _ hnd' pv hmem
  unfold sparseAt
  simp only [Prod.mk.eta]
  exact hkey

lemma zipWith_sub_map (f : ℕ × ℕ → ℚ) (vals : List ℚ)
    (idx : List (ℕ × ℕ)) :
    List.zipWith (fun a b => a - b) vals (idx.map f) =
      (idx.zip vals).map fun pv => pv.2 - f pv.1 := by
  induction vals generalizing idx with
  | nil =>
    cases idx with
    | nil => rfl
    | cons q idx => rfl
  | cons v vals ih =>
    cases idx with
    | nil => rfl
    | cons q idx => simp [ih]

lemma serial_list_eq (sp : SpMat) (P : DMat) :
    tfSquare (tfSub sp.values (gatherNd P sp.indices)) =
      (sp.indices.zip sp.values).map fun pv =>
        (pv.2 - P.entry pv.1.1 pv.1.2) ^ 2 := by
  rw [tfSub, gatherNd, zipWith_sub_map, tfSquare, List.map_map]
  rfl

lemma indices_toFinset_eq (sp : SpMat)
    (hrange : ∀ q ∈ sp.indices, q.1 < sp.rows ∧ q.2 < sp.cols)
    (hcover : ∀ u < sp.rows, ∀ i < sp.cols, (u, i) ∈ sp.indices) :
    sp.indices.toFinset =
      Finset.range sp.rows ×ˢ Finset.range sp.cols := by
  ext q
  simp only [List.mem_toFinset, Finset.mem_product, Finset.mem_range]
  constructor
  · exact fun hq => hrange q hq
  · rintro ⟨h1, h2⟩
    have := hcover q.1 h1 q.2 h2
    simpa using this

lemma grid_sum_eq (sp : SpMat) (g : ℕ × ℕ → ℚ)
    (hnd : sp.indices.Nodup)
    (hrange : ∀ q ∈ sp.indices, q.1 < sp.rows ∧ q.2 < sp.cols)
    (hcover : ∀ u < sp.rows, ∀ i < sp.cols, (u, i) ∈ sp.indices) :
    (∑ u in Finset.range sp.rows, ∑ i in Finset.range sp.cols,
      g (u, i)) = (sp.indices.map g).sum := by
  rw [← List.sum_toFinset g hnd, indices_toFinset_eq sp hrange hcover,
    Finset.sum_product]

lemma grid_card_eq (sp : SpMat) (hnd : sp.indices.Nodup)
    (hrange : ∀ q ∈ sp.indices, q.1 < sp.rows ∧ q.2 < sp.cols)
    (hcover : ∀ u < sp.rows, ∀ i < sp.cols, (u, i) ∈ sp.indices) :
    sp.indices.length = sp.rows * sp.cols := by
  rw [← List.toFinset_card_of_nodup hnd,
    indices_toFinset_eq sp hrange hcover, Finset.card_product,
    Finset.card_range, Finset.card_range]

/-- Claim C2 (amended: the serial samples enumerate the whole grid):
when the sparse nonzero pattern both matches the serial tensors and
covers every cell of the dense grid, the dense RMSE equals the serial
RMSE.  Without full coverage the two divide by different counts. -/
theorem rmse_dense_eq_rmse_of_full_cover (inp : LossInputs)
    (hser_i : inp.tf_interactions_serial =
      inp.tf_interactions.values)
    (hser_p : inp.tf_prediction_serial =
      gatherNd inp.tf_prediction inp.tf_interactions.indices)
    (hlen : inp.tf_interactions.values.length =
      inp.tf_interactions.indices.length)
    (hnd : inp.tf_interactions.indices.Nodup)
    (hrange : ∀ q ∈ inp.tf_interactions.indices,
      q.1 < inp.tf_interactions.rows ∧
      q.2 < inp.tf_interactions.cols)
    (hzero : ∀ u < inp.tf_interactions.rows,
      ∀ i < inp.tf_interactions.cols,
      (u, i) ∉ inp.tf_interactions.indices →
      inp.tf_prediction.entry u i = 0)
    (hcover : ∀ u < inp.tf_interactions.rows,
      ∀ i < inp.tf_interactions.cols,
      (u, i) ∈ inp.tf_interactions.indices) :
    RMSEDenseLossGraph.loss_graph inp =
      RMSELossGraph.loss_graph inp := by
  have hmain : reduceMeanMat (squareMat
      (sparseAdd inp.tf_interactions
        (scalarMulMat (-1) inp.tf_prediction))) =
      reduceMean (tfSquare (tfSub inp.tf_interactions_serial
        inp.tf_prediction_serial)) := by
    rw [hser_i, hser_p, serial_list_eq]
    have hpt : ((inp.tf_interactions.indices.zip
        inp.tf_interactions.values).map fun pv =>
          (pv.2 - inp.tf_prediction.entry pv.1.1 pv.1.2) ^ 2) =
        ((inp.tf_interactions.indices.zip
          inp.tf_interactions.values).map fun pv =>
          (sparseAt inp.tf_interactions pv.1.1 pv.1.2 +
            (-1) * inp.tf_prediction.entry pv.1.1 pv.1.2) ^ 2) := by
      apply List.map_congr_left
      intro pv hpv
      rw [sparseAt_mem inp.tf_interactions hnd hlen pv hpv]
      ring
    rw [hpt]
    have hzlen : ((inp.tf_interactions.indices.zip
        inp.tf_interactions.values).map fun pv =>
          (sparseAt inp.tf_interactions pv.1.1 pv.1.2 +
            (-1) * inp.tf_prediction.entry pv.1.1 pv.1.2) ^ 2).length =
        inp.tf_interactions.indices.length := by
      rw [List.length_map, List.length_zip, hlen, min_self]
    have hcnt := grid_card_eq inp.tf_interactions hnd hrange hcover
    have hsum : (∑ u in Finset.range inp.tf_interactions.rows,
        ∑ i in Finset.range inp.tf_interactions.cols,
        (sparseAt inp.tf_interactions u i +
          (-1) * inp.tf_prediction.entry u i) ^ 2) =
        ((inp.tf_interactions.indices.zip
          inp.tf_interactions.values).map fun pv =>
          (sparseAt inp.tf_interactions pv.1.1 pv.1.2 +
            (-1) * inp.tf_prediction.entry pv.1.1 pv.1.2) ^ 2).sum := by
      rw [grid_sum_eq inp.tf_interactions
        (fun q => (sparseAt inp.tf_interactions q.1 q.2 +
          (-1) * inp.tf_prediction.entry q.1 q.2) ^ 2) hnd hrange
        hcover]
      conv_lhs => rw [← List.map_fst_zip inp.tf_interactions.indices
        inp.tf_interactions.values hlen.ge]
      rw [List.map_map]
      rfl
    have hdiv : ((inp.tf_interactions.rows : ℚ) *
        (inp.tf_interactions.cols : ℚ)) =
        ((inp.tf_interactions.indices.length : ℕ) : ℚ) := by
      rw [← Nat.cast_mul, ← hcnt]
    rw [reduceMeanMat, reduceMean, hzlen]
    simp only [squareMat, sparseAdd, scalarMulMat]
    rw [← hcnt, hsum, hdiv]
  show (reduceMeanMat _).map _ = (reduceMean _).map _
  rw [hmain]

/-- Witness for C2 at a concrete full-coverage input on a 1x2 grid. -/
theorem rmse_dense_eq_rmse_of_full_cover_w :
    RMSEDenseLossGraph.loss_graph
      ⟨[0, 0], [2, 3], ⟨1, 2, fun _ _ => 0⟩,
        ⟨1, 2, [(0, 0), (0, 1)], [2, 3]⟩, dmat0, dmat0, dmat0, dmat0⟩ =
    RMSELossGraph.loss_graph
      ⟨[0, 0], [2, 3], ⟨1, 2, fun _ _ => 0⟩,
        ⟨1, 2, [(0, 0), (0, 1)], [2, 3]⟩, dmat0, dmat0, dmat0, dmat0⟩ :=
  rmse_dense_eq_rmse_of_full_cover _ rfl rfl rfl (by decide)
    (by decide)
    (by intro u hu i hi hmem; rfl)
    (by decide)

lemma list_sum_map_neg (l : List ℚ) :
    (l.map fun x => -x).sum = -l.sum := by
  induction l with
  | nil => simp
  | cons a t ih => simp [ih]; ring

lemma sampleMean_map_neg (l : List ℚ) :
    sampleMean (l.map fun x => -x) = -sampleMean l := by
  rw [sampleMean, sampleMean, list_sum_map_neg, List.length_map,
    neg_div]

lemma sq_dev_sum_map_neg (l : List ℚ) (m : ℚ) :
    (l.map ((fun x => (x - -m) ^ 2) ∘ fun x => -x)).sum =
      (l.map fun x => (x - m) ^ 2).sum := by
  induction l with
  | nil => rfl
  | cons a t ih =>
    simp only [List.map_cons, List.sum_cons, Function.comp_apply, ih]
    rw [show (-a - -m : ℚ) ^ 2 = (a - m) ^ 2 by ring]

lemma sampleVar_map_neg (l : List ℚ) :
    sampleVar (l.map fun x => -x) = sampleVar l := by
  rw [sampleVar, sampleVar, sampleMean_map_neg, List.map_map,
    List.length_map]
  congr 1
  exact sq_dev_sum_map_neg l (sampleMean l)

lemma posGroup_map_neg (ps is : List ℚ) (hz : ∀ x ∈ is, x ≠ 0) :
    posGroup (ps.map fun x => -x) (is.map fun x => -x) =
      (nonposGroup ps is).map fun x => -x := by
  unfold posGroup nonposGroup
  rw [List.zip_map, List.filter_map, List.map_map, List.map_map]
  have hfil : (ps.zip is).filter
      ((fun p : ℚ × ℚ => decide ((0 : ℚ) < p.2)) ∘
        Prod.map (fun x => -x) (fun x => -x)) =
      (ps.zip is).filter fun p => decide (p.2 ≤ 0) := by
    apply List.filter_congr
    intro p hp
    rcases p with ⟨a, b⟩
    have hb : b ∈ is := (List.of_mem_zip hp).2
    have hbne : b ≠ 0 := hz b hb
    simp only [Function.comp_apply, Prod.map_apply]
    apply decide_eq_decide.mpr
    constructor
    · intro h
      linarith
    · intro h
      have hlt : b < 0 := lt_of_le_of_ne h hbne
      linarith
  rw [hfil]
  rfl

lemma nonposGroup_map_neg (ps is : List ℚ) (hz : ∀ x ∈ is, x ≠ 0) :
    nonposGroup (ps.map fun x => -x) (is.map fun x => -x) =
      (posGroup ps is).map fun x => -x := by
  unfold posGroup nonposGroup
  rw [List.zip_map, List.filter_map, List.map_map, List.map_map]
  have hfil : (ps.zip is).filter
      ((fun p : ℚ × ℚ => decide (p.2 ≤ (0 : ℚ))) ∘
        Prod.map (fun x => -x) (fun x => -x)) =
      (ps.zip is).filter fun p => decide (0 < p.2) := by
    apply List.filter_congr
    intro p hp
    rcases p with ⟨a, b⟩
    have hb : b ∈ is := (List.of_mem_zip hp).2
    have hbne : b ≠ 0 := hz b hb
    simp only [Function.comp_apply, Prod.map_apply]
    apply decide_eq_decide.mpr
    constructor
    · intro h
      have hle : 0 ≤ b := by linarith
      exact lt_of_le_of_ne hle (Ne.symm hbne)
    · intro h
      linarith
  rw [hfil]
  rfl

/-- Counterexample to C4 as stated: with a zero-valued interaction
present, negating the predictions and flipping the interaction signs
does not swap the groups (the zero entry stays in the non-positive
group), and here it empties the positive group, turning a defined loss
into the undefined one. -/
theorem separation_flip_cex :
    SeparationLossGraph.loss_graph
      (mkSerialInput (([0, 0, 1] : List ℚ).map fun x => -x)
        (([1, 1, 0] : List ℚ).map fun x => -x)) ≠
    SeparationLossGraph.loss_graph
      (mkSerialInput [0, 0, 1] [1, 1, 0]) := by
  intro h
  rw [separation_loss_eq_spec, separation_loss_eq_spec] at h
  simp only [separationSpec, mkSerialInput] at h
  norm_num [posGroup, nonposGroup, sampleMean, sampleVar, normalCDF,
    List.filter, Real.sqrt_zero] at h
  simp at h

/-- Claim C4 (amended: no interaction is exactly zero): negating every
prediction and flipping the sign of every interaction swaps the two
groups and leaves the separation loss unchanged. -/
theorem separation_flip_symmetric (inp inp' : LossInputs)
    (hz : ∀ x ∈ inp.tf_interactions_serial, x ≠ 0)
    (hp : inp'.tf_prediction_serial =
      inp.tf_prediction_serial.map fun x => -x)
    (hi : inp'.tf_interactions_serial =
      inp.tf_interactions_serial.map fun x => -x) :
    SeparationLossGraph.loss_graph inp' =
      SeparationLossGraph.loss_graph inp := by
  rw [separation_loss_eq_spec, separation_loss_eq_spec, hp, hi]
  simp only [separationSpec]
  rw [posGroup_map_neg _ _ hz, nonposGroup_map_neg _ _ hz,
    sampleMean_map_neg, sampleMean_map_neg, sampleVar_map_neg,
    sampleVar_map_neg]
  simp only [List.map_eq_nil_iff]
  have h1 : (-sampleMean (posGroup inp.tf_prediction_serial
        inp.tf_interactions_serial) -
      -sampleMean (nonposGroup inp.tf_prediction_serial
        inp.tf_interactions_serial) : ℚ) =
      sampleMean (nonposGroup inp.tf_prediction_serial
        inp.tf_interactions_serial) -
      sampleMean (posGroup inp.tf_prediction_serial
        inp.tf_interactions_serial) := by
    ring
  have h2 : (sampleVar (posGroup inp.tf_prediction_serial
        inp.tf_interactions_serial) +
      sampleVar (nonposGroup inp.tf_prediction_serial
        inp.tf_interactions_serial) : ℚ) =
      sampleVar (nonposGroup inp.tf_prediction_serial
        inp.tf_interactions_serial) +
      sampleVar (posGroup inp.tf_prediction_serial
        inp.tf_interactions_serial) :=
    add_comm _ _
  by_cases hcase : posGroup inp.tf_prediction_serial
        inp.tf_interactions_serial = [] ∨
      nonposGroup inp.tf_prediction_serial
        inp.tf_interactions_serial = []
  · rw [if_pos hcase.symm, if_pos hcase]
  · rw [if_neg (fun hc => hcase hc.symm), if_neg hcase, h1, h2]

/-- Witness for C4 at a concrete zero-free input. -/
theorem separation_flip_symmetric_w :
    SeparationLossGraph.loss_graph
      (mkSerialInput (([1, 5] : List ℚ).map fun x => -x)
        (([2, -3] : List ℚ).map fun x => -x)) =
    SeparationLossGraph.loss_graph (mkSerialInput [1, 5] [2, -3]) :=
  separation_flip_symmetric (mkSerialInput [1, 5] [2, -3])
    (mkSerialInput (([1, 5] : List ℚ).map fun x => -x)
      (([2, -3] : List ℚ).map fun x => -x))
    (by norm_num [mkSerialInput]) rfl rfl
